import Mathlib

/-!
# Verification of `bevy_observed_utility` core semantics

Shallow embedding of the scoring / picking / acting machinery of the
`bevy_observed_utility` crate, together with theorems settling the claims of
its specification.

Modelling conventions:
* `Entity` and action `ComponentId`s are modelled as `ℕ`.
* `f32` arithmetic is modelled exactly: by `ℚ` where only field operations and
  comparisons occur, by `ℝ` where `sqrt`/`powf` occur, and by an explicit
  `F32` type with NaN/±∞ where the claim is about those values.
* Rust's `f32::clamp(min, max)` asserts `min ≤ max` (it panics otherwise), so
  it is modelled as `Option`-returning (`none` = panic) except where the
  bounds are the literals `0.0, 1.0`.
* Bevy `Commands` are deferred and applied in FIFO order, so an observer is
  modelled as a pure function from its inputs to (new state, ordered list of
  emitted events).
-/

namespace ObservedUtility

/-! ## `f32` with NaN and infinities (for `Score::new`, `src/scoring.rs`) -/

/-- An `f32` value: NaN, +∞, -∞, or a finite value (modelled exactly). -/
inductive F32 where
  | nan
  | inf
  | neginf
  | finite (q : ℚ)
  deriving DecidableEq

/-- Rust `<` on `f32`: any comparison with NaN is `false`;
otherwise the usual total order with `-∞ < finite < +∞`. -/
def F32.lt : F32 → F32 → Bool
  | .nan, _ => false
  | _, .nan => false
  | .neginf, .neginf => false
  | .neginf, _ => true
  | .inf, _ => false
  | .finite _, .inf => true
  | .finite _, .neginf => false
  | .finite a, .finite b => decide (a < b)

/-- Rust `f32::clamp(self, 0.0, 1.0)` as used by `Score::new` / `Score::set`
(`src/scoring.rs:145-171`): `if self < min { min } else if self > max { max }
else { self }`.  The `assert!(min <= max)` holds since the bounds are the
literals `0.0 ≤ 1.0`, so this call never panics.  Note NaN compares `false`
on both tests and is returned unchanged. -/
def scoreNew (x : F32) : F32 :=
  if F32.lt x (.finite 0) then .finite 0
  else if F32.lt (.finite 1) x then .finite 1
  else x

/-- Whether an `f32` is a finite value inside `[0, 1]`. -/
def F32.mem01 : F32 → Bool
  | .finite q => decide (0 ≤ q) && decide (q ≤ 1)
  | _ => false

/-! ## Exact-arithmetic `Score` clamp (used by every aggregator below) -/

/-- `Score::new` / `Score::set` over exact (finite) arithmetic:
clamp into `[0, 1]`. -/
def clamp01 (x : ℚ) : ℚ :=
  if x < 0 then 0 else if 1 < x then 1 else x

/-- Rust `f32::clamp(self, lo, hi)` over exact values: `none` models the
panic of the `assert!(min <= max)` when the bounds are reversed. -/
def rustClamp (x lo hi : ℚ) : Option ℚ :=
  if lo ≤ hi then some (if x < lo then lo else if hi < x then hi else x)
  else none

/-! ## `Picker` (`src/picking.rs`) -/

/-- The `Picker` component: a default action, the `choices` map from score
entity to action `ComponentId` (unique keys, modelled as an association
list), and the last `picked` action. -/
structure Picker where
  default : ℕ
  choices : List (ℕ × ℕ)
  picked : ℕ
  deriving DecidableEq

/-- `Picker::new` (`src/picking.rs:73-79`). -/
def Picker.new (default : ℕ) : Picker :=
  { default := default, choices := [], picked := default }

/-- `Picker::pick` (`src/picking.rs:89-95`): resolve the optional score
entity through `choices` (falling back to `default`), record it in `picked`,
and return it. -/
def Picker.pick (p : Picker) (scoreEntity : Option ℕ) : ℕ × Picker :=
  let action := (scoreEntity.bind (fun e => p.choices.lookup e)).getD p.default
  (action, { p with picked := action })

/-! ## Action lifecycle (`src/acting.rs`) -/

/-- `ActionEndReason` (`src/event.rs:148-153`). -/
inductive ActionEndReason where
  | completed
  | cancelled
  deriving DecidableEq

/-- The lifecycle events emitted by `ActionPlugin::on_request_cancel_and_initiate`,
in the FIFO order the deferred `Commands` apply them. -/
inductive ActEvent where
  | actionEnded (actor : ℕ) (action : ℕ) (reason : ActionEndReason)
  | actionInitiated (actor : ℕ) (action : ℕ)
  deriving DecidableEq

/-- The per-actor state read and written by the lifecycle observer: the
optional `Picker` component and the optional `CurrentAction` component. -/
structure ActorState where
  picker : Option Picker
  currentAction : Option ℕ
  deriving DecidableEq

/-- `ActionPlugin::on_request_cancel_and_initiate` (`src/acting.rs:39-71`).
The query `Query<(&Picker, Option<&CurrentAction>)>` fails when the actor has
no `Picker`, making the whole handler a no-op.  Otherwise the requested
action (or, for `RequestAction { action: None }`, the picker's `picked`)
is compared with the current action: equal means no-op; different means the
current action is cancelled first, then `CurrentAction` is replaced and the
new action initiated. -/
def onRequestCancelAndInitiate (actor : ℕ) (requested : Option ℕ)
    (st : ActorState) : ActorState × List ActEvent :=
  match st.picker with
  | none => (st, [])
  | some picker =>
    let nextAction := requested.getD picker.picked
    match st.currentAction with
    | some current =>
      if nextAction = current then
        (st, [])
      else
        ({ st with currentAction := some nextAction },
         [.actionEnded actor current .cancelled,
          .actionInitiated actor nextAction])
    | none =>
      ({ st with currentAction := some nextAction },
       [.actionInitiated actor nextAction])

/-- Counts the `ActionInitiated` events in a list. -/
def countInitiated (evs : List ActEvent) : ℕ :=
  evs.countP (fun ev => match ev with
    | .actionInitiated _ _ => true
    | _ => false)

/-! ## `FirstToScore` picking (`src/picking/first_to_score.rs`) -/

/-- Picking events emitted by picker observers. -/
inductive PickEvent where
  | onPicked (actor : ℕ) (action : ℕ)
  deriving DecidableEq

/-- The body of `FirstToScore::observer`'s `run`
(`src/picking/first_to_score.rs:93-111`): iterate the actor's scored
children in hierarchy order; the first child whose `Score` reaches the
threshold is picked (no event); if none reaches it, the default action is
picked and `OnPicked` is emitted. -/
def FirstToScore.runLoop (threshold : ℚ) (actor : ℕ) (picker : Picker) :
    List (ℕ × ℚ) → Picker × List PickEvent
  | [] =>
    let (action, picker') := picker.pick none
    (picker', [.onPicked actor action])
  | (scoreEntity, score) :: rest =>
    if threshold ≤ score then
      ((picker.pick (some scoreEntity)).2, [])
    else
      FirstToScore.runLoop threshold actor picker rest

/-! ## `AncestorQuery` (`src/ecs.rs:46-130`) -/

/-- The world state an `AncestorQuery<&T>` reads: which entities carry the
component `T` (`Has<T>`), the component's value where present, and the
`Parent` component. -/
structure AWorld where
  hasT : ℕ → Bool
  valT : ℕ → ℕ
  parent : ℕ → Option ℕ

/-- The `Local<EntityHashMap<Entity, Entity>>` cache of an `AncestorQuery`,
mapping a query's start entity to its memoized ancestor. -/
def Cache : Type := ℕ → Option ℕ

/-- `AncestorQuery::find` (`src/ecs.rs:60-80`): crawl up the parent chain
from `current` until an entity carrying `T` is found (`some`) or the chain
ends (`none`, the `QueryEntityError`).  The loop is fuelled; the real code
does not terminate on a cyclic hierarchy. -/
def AncestorQuery.find (w : AWorld) : ℕ → ℕ → Option ℕ
  | 0, _ => none
  | fuel + 1, current =>
    if w.hasT current then some current
    else
      match w.parent current with
      | some p => AncestorQuery.find w fuel p
      | none => none

/-- `AncestorQuery::get` (`src/ecs.rs:94-107`): if the cache holds an entry
for `start`, and the cached ancestor still carries `T`, return its value
(cache hit).  Otherwise evict the entry and re-run `find` (which re-caches
the found ancestor).  Returns the fetched value and the updated cache. -/
def AncestorQuery.get (w : AWorld) (fuel : ℕ) (cache : Cache) (start : ℕ) :
    Option ℕ × Cache :=
  match cache start with
  | some anc =>
    if w.hasT anc then
      (some (w.valT anc), cache)
    else
      match AncestorQuery.find w fuel start with
      | some found =>
        (some (w.valT found), fun e => if e = start then some found else cache e)
      | none =>
        (none, fun e => if e = start then none else cache e)
  | none =>
    match AncestorQuery.find w fuel start with
    | some found =>
      (some (w.valT found), fun e => if e = start then some found else cache e)
    | none => (none, cache)

/-- The (fuelled) ancestor chain of an entity, starting at the entity
itself: the search in `AncestorQuery::find` is inclusive of its start. -/
def ancestorChain (w : AWorld) : ℕ → ℕ → List ℕ
  | 0, _ => []
  | fuel + 1, e =>
    e :: (match w.parent e with
          | some p => ancestorChain w fuel p
          | none => [])

/-- The nearest ancestor (inclusive) carrying `T`, as the specification
describes it: the first entity of the ancestor chain that carries `T`. -/
def nearestCarrier (w : AWorld) (fuel start : ℕ) : Option ℕ :=
  (ancestorChain w fuel start).find? w.hasT

/-! ## Evaluators (`src/scoring/evaluator.rs`) -/

/-- `LinearEvaluator` (`src/scoring/evaluator.rs:118-152`): fields as stored
by `LinearEvaluator::new`. -/
structure LinearEvaluator where
  ax : ℚ
  ay : ℚ
  bY : ℚ
  dyOverDx : ℚ

/-- `LinearEvaluator::new(a, b)` (`src/scoring/evaluator.rs:127-133`). -/
def LinearEvaluator.new (a b : ℚ × ℚ) : LinearEvaluator :=
  { ax := a.1, ay := a.2, bY := b.2, dyOverDx := (b.2 - a.2) / (b.1 - a.1) }

/-- `LinearEvaluator::evaluate` (`src/scoring/evaluator.rs:142-146`):
`(a.y + dy_over_dx * (value - a.x)).clamp(a.y, by)`.  The clamp panics
(`none`) when `a.y > by`, i.e. for reversed anchor `y`-coordinates. -/
def LinearEvaluator.evaluate (ev : LinearEvaluator) (value : ℚ) : Option ℚ :=
  rustClamp (ev.ay + ev.dyOverDx * (value - ev.ax)) ev.ay ev.bY

/-- `PowerEvaluator` (`src/scoring/evaluator.rs:155-200`). -/
structure PowerEvaluator where
  ax : ℚ
  ay : ℚ
  bx : ℚ
  power : ℚ
  dy : ℚ

/-- `PowerEvaluator::new(power, a, b)` (`src/scoring/evaluator.rs:165-174`):
the exponent is clamped into `[0, 10000]` (bounds in order, no panic). -/
def PowerEvaluator.new (power : ℚ) (a b : ℚ × ℚ) : PowerEvaluator :=
  { ax := a.1, ay := a.2, bx := b.1
    power := if power < 0 then 0 else if 10000 < power then 10000 else power
    dy := b.2 - a.2 }

/-- `PowerEvaluator::evaluate` (`src/scoring/evaluator.rs:189-194`):
`value.clamp(a.x, bx)` (panics when `a.x > bx`), then
`dy * ((cx - a.x) / (bx - a.x)).powf(power) + a.y` (real exponentiation). -/
noncomputable def PowerEvaluator.evaluate (ev : PowerEvaluator) (value : ℚ) :
    Option ℝ :=
  (rustClamp value ev.ax ev.bx).map (fun cx =>
    (ev.dy : ℝ) * (((cx - ev.ax) / (ev.bx - ev.ax) : ℚ) : ℝ) ^ (ev.power : ℝ) + (ev.ay : ℝ))

/-- `SigmoidEvaluator` (`src/scoring/evaluator.rs:205-253`). -/
structure SigmoidEvaluator where
  ax : ℚ
  ay : ℚ
  bx : ℚ
  bY : ℚ
  k : ℚ
  twoOverDx : ℚ
  xMean : ℚ
  yMean : ℚ
  dyOverTwo : ℚ
  oneMinusK : ℚ

/-- `SigmoidEvaluator::new(k, a, b)` (`src/scoring/evaluator.rs:218-231`):
`k` is clamped into `[-0.99999, 0.99999]` (bounds in order, no panic). -/
def SigmoidEvaluator.new (k : ℚ) (a b : ℚ × ℚ) : SigmoidEvaluator :=
  let kc := if k < -(99999 / 100000) then -(99999 / 100000)
            else if (99999 / 100000) < k then 99999 / 100000 else k
  { ax := a.1, ay := a.2, bx := b.1, bY := b.2, k := kc
    twoOverDx := |2 / (b.1 - a.1)|
    xMean := (a.1 + b.1) / 2
    yMean := (a.2 + b.2) / 2
    dyOverTwo := (b.2 - a.2) / 2
    oneMinusK := 1 - kc }

/-- `SigmoidEvaluator::evaluate` (`src/scoring/evaluator.rs:246-253`): two
Rust clamps, on the input (`a.x, b.x`) and on the output (`a.y, b.y`); each
panics (`none`) when its bounds are reversed. -/
def SigmoidEvaluator.evaluate (ev : SigmoidEvaluator) (value : ℚ) : Option ℚ :=
  (rustClamp value ev.ax ev.bx).bind (fun cx =>
    let cxMinusXMean := cx - ev.xMean
    let numerator := ev.twoOverDx * cxMinusXMean * ev.oneMinusK
    let denominator := 1 + ev.k * |1 - 2 * (ev.twoOverDx * cxMinusXMean)|
    rustClamp (ev.dyOverTwo * (numerator / denominator) + ev.yMean) ev.ay ev.bY)

/-- `ExponentialEvaluator` (`src/scoring/evaluator.rs:264-310`). -/
structure ExponentialEvaluator where
  ax : ℚ
  ay : ℚ
  bx : ℚ
  k : ℚ
  dyOverDx : ℚ

/-- `ExponentialEvaluator::new(k, a, b)` (`src/scoring/evaluator.rs:274-282`). -/
def ExponentialEvaluator.new (k : ℚ) (a b : ℚ × ℚ) : ExponentialEvaluator :=
  { ax := a.1, ay := a.2, bx := b.1
    k := if k < -(99999 / 100000) then -(99999 / 100000)
         else if (99999 / 100000) < k then 99999 / 100000 else k
    dyOverDx := (b.2 - a.2) / (b.1 - a.1) }

/-- `ExponentialEvaluator::evaluate` (`src/scoring/evaluator.rs:298-303`):
one Rust clamp on the input, then total arithmetic. -/
def ExponentialEvaluator.evaluate (ev : ExponentialEvaluator) (value : ℚ) :
    Option ℚ :=
  (rustClamp value ev.ax ev.bx).map (fun cx =>
    ev.ay + (cx - ev.ax) * ev.dyOverDx / (1 + ev.k * (ev.bx - cx)))

/-- `LogarithmicEvaluator` (`src/scoring/evaluator.rs:315-355`). -/
structure LogarithmicEvaluator where
  ax : ℚ
  ay : ℚ
  bx : ℚ
  k : ℚ
  dyOverDx : ℚ

/-- `LogarithmicEvaluator::new(k, a, b)` (`src/scoring/evaluator.rs:325-333`). -/
def LogarithmicEvaluator.new (k : ℚ) (a b : ℚ × ℚ) : LogarithmicEvaluator :=
  { ax := a.1, ay := a.2, bx := b.1
    k := if k < -(99999 / 100000) then -(99999 / 100000)
         else if (99999 / 100000) < k then 99999 / 100000 else k
    dyOverDx := (b.2 - a.2) / (b.1 - a.1) }

/-- `LogarithmicEvaluator::evaluate` (`src/scoring/evaluator.rs:349-354`):
one Rust clamp on the input, then total arithmetic. -/
def LogarithmicEvaluator.evaluate (ev : LogarithmicEvaluator) (value : ℚ) :
    Option ℚ :=
  (rustClamp value ev.ax ev.bx).map (fun cx =>
    ev.ay + (cx - ev.ax) * ev.dyOverDx / (1 + ev.k * (cx - ev.ax)))

/-! ## `ScoreRange` (`src/scoring.rs:236-307`) and `RandomScore` -/

/-- A `Bound<Score>`. -/
inductive SBound where
  | included (s : ℚ)
  | excluded (s : ℚ)
  | unbounded
  deriving DecidableEq

/-- A `Bound<Score>` is well-formed when its payload is a valid `Score`
(the `Score` constructor clamps into `[0, 1]`). -/
def SBound.wf : SBound → Prop
  | .included s => 0 ≤ s ∧ s ≤ 1
  | .excluded s => 0 ≤ s ∧ s ≤ 1
  | .unbounded => True

/-- `ScoreRange` (`src/scoring.rs:238-243`). -/
structure ScoreRange where
  min : SBound
  max : SBound
  deriving DecidableEq

/-- `ScoreRange::new` (`src/scoring.rs:254-264`): when both bounds carry a
value and `max < min`, `std::mem::swap` exchanges the two payload values
(the `Included`/`Excluded` constructors stay in place). -/
def ScoreRange.new (mn mx : SBound) : ScoreRange :=
  match mn, mx with
  | .included a, .included b =>
    if b < a then ⟨.included b, .included a⟩ else ⟨.included a, .included b⟩
  | .included a, .excluded b =>
    if b < a then ⟨.included b, .excluded a⟩ else ⟨.included a, .excluded b⟩
  | .excluded a, .included b =>
    if b < a then ⟨.excluded b, .included a⟩ else ⟨.excluded a, .included b⟩
  | .excluded a, .excluded b =>
    if b < a then ⟨.excluded b, .excluded a⟩ else ⟨.excluded a, .excluded b⟩
  | mn, mx => ⟨mn, mx⟩

/-- `ScoreRange::min_f32` (`src/scoring.rs:280-285`). -/
def ScoreRange.minF : ScoreRange → ℚ
  | ⟨.included s, _⟩ => s
  | ⟨.excluded s, _⟩ => s
  | ⟨.unbounded, _⟩ => 0

/-- `ScoreRange::max_f32` (`src/scoring.rs:295-300`). -/
def ScoreRange.maxF : ScoreRange → ℚ
  | ⟨_, .included s⟩ => s
  | ⟨_, .excluded s⟩ => s
  | ⟨_, .unbounded⟩ => 1

/-! ## Aggregators (`src/scoring/{sum,product,all_or_nothing,winning}.rs`) -/

/-- `Sum::observer` (`src/scoring/sum.rs:60-82`): fold the child scores,
zero the total below the threshold, and write it through `Score::set`. -/
def sumObserverScore (threshold : ℚ) (children : List ℚ) : ℚ :=
  let s := children.foldl (· + ·) 0
  clamp01 (if s < threshold then 0 else s)

/-- `Product::observer` (`src/scoring/product.rs:72-102`): fold the product
(counting the children), optionally apply compensation, zero below the
threshold, and write through `Score::set`. -/
def productObserverScore (threshold : ℚ) (useCompensation : Bool)
    (children : List ℚ) : ℚ :=
  let p := children.foldl (· * ·) 1
  let n := children.length
  let p :=
    if useCompensation && decide (0 < n) then
      p + (1 - p) * (1 - 1 / (n : ℚ)) * p
    else p
  clamp01 (if p < threshold then 0 else p)

/-- The loop of `AllOrNothing::observer` (`src/scoring/all_or_nothing.rs:67-75`):
sum the children, but a child below the threshold zeroes the total and stops. -/
def allOrNothingLoop (threshold : ℚ) (acc : ℚ) : List ℚ → ℚ
  | [] => acc
  | c :: rest =>
    if c < threshold then 0 else allOrNothingLoop threshold (acc + c) rest

/-- `AllOrNothing::observer` (`src/scoring/all_or_nothing.rs:61-83`). -/
def allOrNothingObserverScore (threshold : ℚ) (children : List ℚ) : ℚ :=
  clamp01 (allOrNothingLoop threshold 0 children)

/-- `Winning::observer` (`src/scoring/winning.rs:60-83`): running maximum
starting from `0`, zeroed below the threshold, written through `Score::set`. -/
def winningObserverScore (threshold : ℚ) (children : List ℚ) : ℚ :=
  let m := children.foldl (fun best c => if best < c then c else best) 0
  clamp01 (if m < threshold then 0 else m)

/-! ## Weighted measures (`src/scoring/measured.rs`) -/

/-- `impl Sum<Score> for f32` (`src/scoring.rs:226-233`): fold the scores
from `Score::MIN.get() = 0` and clamp the total through `Score::new`. -/
def scoreSumF32 (scores : List ℚ) : ℚ :=
  clamp01 (scores.foldl (· + ·) 0)

/-- `WeightedSum::calculate` (`src/scoring/measured.rs:177-183`). -/
def weightedSumMeasure (inputs : List (ℚ × ℚ)) : ℚ :=
  clamp01 (inputs.foldl (fun acc p => acc + p.1 * p.2) 0)

/-- `WeightedProduct::calculate` (`src/scoring/measured.rs:191-197`). -/
def weightedProductMeasure (inputs : List (ℚ × ℚ)) : ℚ :=
  clamp01 (inputs.foldl (fun acc p => acc * p.1 * p.2) 1)

/-- `WeightedMax::calculate` (`src/scoring/measured.rs:205-211`). -/
def weightedMaxMeasure (inputs : List (ℚ × ℚ)) : ℚ :=
  clamp01 (inputs.foldl (fun best p => max (p.1 * p.2) best) 0)

/-- `WeightedRMS::calculate` (`src/scoring/measured.rs:219-232`), over
(score, weight) pairs.  The weight total is computed by
`.sum::<f32>()` over `Score`s, i.e. by the clamping `impl Sum<Score> for
f32` — so `weight_sum` is the weight total clamped into `[0, 1]`.  The
per-child terms are then summed as plain `f32`s (no clamp) and passed
through `sqrt` and `Score::new`. -/
noncomputable def WeightedRMS.calculate (inputs : List (ℚ × ℚ)) : ℝ :=
  let weightSum := scoreSumF32 (inputs.map (·.2))
  if weightSum = 0 then 0
  else
    let rms := Real.sqrt
      (((inputs.map (fun p => p.2 / weightSum * p.1 ^ 2)).foldl (· + ·) 0 : ℚ) : ℝ)
    if rms < 0 then 0 else if 1 < rms then 1 else rms

/-- The claim's formula for `WeightedRMS`, verbatim: `0` when the weight sum
is `0`, else `sqrt(Σ (weight_i / Σweight) × score_i²)` where `Σweight` is
the **true (unclamped)** sum of the weights. -/
noncomputable def weightedRMSClaim (inputs : List (ℚ × ℚ)) : ℝ :=
  let weightSum := (inputs.map (·.2)).sum
  if weightSum = 0 then 0
  else Real.sqrt (((inputs.map (fun p => p.2 / weightSum * p.1 ^ 2)).sum : ℚ) : ℝ)

/-- The amended formula for `WeightedRMS`: identical to the claim's except
that `Σweight` is the weight total clamped into `[0, 1]` (as the `Score`
summation does), and the final result is clamped into `[0, 1]`. -/
noncomputable def weightedRMSAmended (inputs : List (ℚ × ℚ)) : ℝ :=
  let weightSum := clamp01 (inputs.map (·.2)).sum
  if weightSum = 0 then 0
  else
    let rms := Real.sqrt (((inputs.map (fun p => p.2 / weightSum * p.1 ^ 2)).sum : ℚ) : ℝ)
    min (max rms 0) 1

/-! ## Post-order DFS traversal (`src/ecs.rs:204-286`) -/

/-- A finite entity tree: `node label children`.  Queue entries of the
traversal carry the entity's subtree, so the `Children` lookup of the source
is part of the entry. -/
inductive ETree where
  | node (label : ℕ) (children : List ETree)

/-- The entity at the root of a subtree. -/
def ETree.label : ETree → ℕ
  | .node e _ => e

/-- The child subtrees. -/
def ETree.children : ETree → List ETree
  | .node _ cs => cs

/-- Number of nodes of a tree. -/
def ETree.size : ETree → ℕ
  | .node _ cs => 1 + (cs.attach.map (fun c => ETree.size c.1)).sum
decreasing_by
  have := List.sizeOf_lt_of_mem c.2
  simp only [ETree.node.sizeOf_spec]
  omega

/-- Whether `DFSPostTraversalIter::next` expands a queue entry: the
`children: Query<&Children, F>` lookup succeeds exactly when the entity
matches the filter `F` and has a (nonempty) `Children` component. -/
def expandCond (f : ℕ → Bool) (t : ETree) : Bool :=
  f t.label && !t.children.isEmpty

/-- The recursive specification of the traversal: children of every
filter-passing node first (in order), then the node itself.  A node failing
the filter (or without children) is not expanded. -/
def postOrder (f : ℕ → Bool) : ETree → List ℕ
  | .node e cs =>
    (if f e && !cs.isEmpty then
      ((cs.attach.map (fun c => postOrder f c.1)).flatten)
     else []) ++ [e]
decreasing_by
  have := List.sizeOf_lt_of_mem c.2
  simp only [ETree.node.sizeOf_spec]
  omega

/-- The subtrees the traversal reaches from the root: the root itself, and —
when the root is expanded — everything reachable from its children. -/
def reachableSubtrees (f : ℕ → Bool) : ETree → List ETree
  | .node e cs =>
    .node e cs ::
      (if f e && !cs.isEmpty then
        (cs.attach.map (fun c => reachableSubtrees f c.1)).flatten
       else [])
decreasing_by
  have := List.sizeOf_lt_of_mem c.2
  simp only [ETree.node.sizeOf_spec]
  omega

/-- The state of `DFSPostTraversalIter` (`src/ecs.rs:223-227`, together with
the `queue: Local<VecDeque<(usize, Entity)>>` of the `SystemParam`): the
queue of `(depth, entity)` entries, the `visited` cursor and the current
traversal depth. -/
structure IterState where
  queue : List (ℕ × ETree)
  visited : ℕ
  currentDepth : ℕ

/-- The `for (j, child) in ...enumerate()` insertion loop of
`DFSPostTraversalIter::next` (`src/ecs.rs:271-273`): insert the children
one after another at positions `i + j + 1`, at depth `depth + 1`. -/
def insertChildrenAux (depth : ℕ) :
    List (ℕ × ETree) → ℕ → List ETree → List (ℕ × ETree)
  | q, _, [] => q
  | q, pos, c :: cs =>
    insertChildrenAux depth (q.insertIdx pos (depth + 1, c)) (pos + 1) cs

/-- The insertion loop started at `queue.insert(i + 1, ...)`. -/
def insertChildren (q : List (ℕ × ETree)) (i depth : ℕ) (cs : List ETree) :
    List (ℕ × ETree) :=
  insertChildrenAux depth q (i + 1) cs

/-- The inner `loop` of `DFSPostTraversalIter::next` (`src/ecs.rs:251-274`),
fuelled (the source loop's termination is not syntactic): look at entry
`visited`; stop when past the end or when the entry is shallower than the
current depth; otherwise mark it visited, adopt its depth, and — if the
children lookup succeeds — splice the children right after it and continue. -/
def expandLoop (f : ℕ → Bool) : ℕ → IterState → IterState
  | 0, s => s
  | fuel + 1, s =>
    match s.queue[s.visited]? with
    | none => s
    | some (depth, t) =>
      if s.currentDepth > depth then s
      else
        let i := s.visited
        if expandCond f t then
          expandLoop f fuel
            ⟨insertChildren s.queue i depth t.children, i + 1, depth⟩
        else
          ⟨s.queue, i + 1, depth⟩

/-- The tail of `DFSPostTraversalIter::next` (`src/ecs.rs:276-281`):
`queue.remove(visited - 1)?`, then decrement `visited` and adopt the removed
entry's depth.  With `visited = 0` the `usize` subtraction wraps in release
mode and `VecDeque::remove` returns `None`. -/
def removeStep (s : IterState) : Option (ℕ × IterState) :=
  if s.visited = 0 then none
  else
    match s.queue[s.visited - 1]? with
    | none => none
    | some (depth, t) =>
      some (t.label, ⟨s.queue.eraseIdx (s.visited - 1), s.visited - 1, depth⟩)

/-- `DFSPostTraversalIter::next` (`src/ecs.rs:245-282`). -/
def nextIter (f : ℕ → Bool) (fuel : ℕ) (s : IterState) :
    Option (ℕ × IterState) :=
  if s.queue.isEmpty then none
  else removeStep (expandLoop f fuel s)

/-- The iterator drained into a list. -/
def runIter (f : ℕ → Bool) (inner : ℕ) : ℕ → IterState → List ℕ
  | 0, _ => []
  | fuel + 1, s =>
    match nextIter f inner s with
    | none => []
    | some (e, s') => e :: runIter f inner fuel s'

/-- `DFSPostTraversal::iter(root)` collected into a list: the queue is
cleared and seeded with `(0, root)` (`src/ecs.rs:230-239`), `visited` and
the current depth start at `0`, and `next` is called until exhaustion.  The
fuel `root.size + 2` is sufficient (`dfsPostOrder_eq_postOrder`). -/
def dfsPostOrder (f : ℕ → Bool) (root : ETree) : List ℕ :=
  runIter f (root.size + 2) (root.size + 2) ⟨[(0, root)], 0, 0⟩

/-! ### The abstract view of reachable iterator states -/

/-- Post-order of a pending forest. -/
def postForest (f : ℕ → Bool) (g : List ETree) : List ℕ :=
  (g.map (postOrder f)).flatten

/-- The queue segment of the visited spine, deepest last: the spine is given
deepest-first (`rspine`), entry `i` of the queue holds depth `i`. -/
def spineQueue : List ETree → List (ℕ × ETree)
  | [] => []
  | t :: ts => spineQueue ts ++ [(ts.length, t)]

/-- The queue segment of the pending groups: the first group at depth `d`,
the next at `d - 1`, and so on. -/
def renderGroups : ℕ → List (List ETree) → List (ℕ × ETree)
  | _, [] => []
  | d, g :: rest => g.map (fun t => (d, t)) ++ renderGroups (d - 1) rest

/-- The iterator state corresponding to a spine (deepest-first) and its
pending groups. -/
def toIter (rspine : List ETree) (groups : List (List ETree)) : IterState :=
  ⟨spineQueue rspine ++ renderGroups rspine.length groups,
   rspine.length, rspine.length⟩

/-- The remaining output of the iterator from an abstract state. -/
def outAbs (f : ℕ → Bool) : List (List ETree) → List ETree → List ℕ
  | [], _ => []
  | g :: _, [] => postForest f g
  | g :: rest, t :: ts => postForest f g ++ t.label :: outAbs f rest ts

/-- Size of the first pending element (0 if none): bounds the number of
expansion steps of one `next` call. -/
def headSize : List (List ETree) → ℕ
  | (g :: _) :: _ => g.size
  | _ => 0

/-- One `next` call on the abstract state. -/
def nextAbs (f : ℕ → Bool) :
    List ETree → List (List ETree) →
      Option (ℕ × (List ETree × List (List ETree)))
  | _, [] => none
  | [], [] :: _ => none
  | t :: ts, [] :: rest => some (t.label, (ts, rest))
  | rspine, (g :: gs) :: rest =>
    if expandCond f g then
      nextAbs f (g :: rspine) (g.children :: gs :: rest)
    else
      some (g.label, (rspine, gs :: rest))
termination_by _ groups =>
  (match groups with
   | (g :: _) :: _ => sizeOf g
   | _ => 0)
decreasing_by
  cases hg : g.children with
  | nil =>
    cases g with
    | node e cs =>
      simp only [ETree.node.sizeOf_spec]
      omega
  | cons c cs' =>
    have hmem : c ∈ g.children := by rw [hg]; exact List.mem_cons_self c cs'
    have h1 := List.sizeOf_lt_of_mem hmem
    cases g with
    | node e cs =>
      simp only [ETree.children, ETree.node.sizeOf_spec] at h1 ⊢
      omega

/-- Total measure of an abstract state: strictly decreases at every yield. -/
def absMeasure (rspine : List ETree) (groups : List (List ETree)) : ℕ :=
  rspine.length + (groups.map (fun g => (g.map ETree.size).sum)).sum

/-!
# Theorems

Helper lemmas first, then one theorem per claim (with witnesses and
counterexamples where required).
-/

theorem rustClamp_zero_one (x : ℚ) : rustClamp x 0 1 = some (clamp01 x) := by
  simp [rustClamp, clamp01]

theorem clamp01_mem (x : ℚ) : 0 ≤ clamp01 x ∧ clamp01 x ≤ 1 := by
  unfold clamp01
  split
  · exact ⟨le_refl 0, by norm_num⟩
  · split
    · exact ⟨by norm_num, le_refl 1⟩
    · exact ⟨le_of_not_lt ‹¬x < 0›, le_of_not_lt ‹¬1 < x›⟩

theorem rustClamp_isSome {lo hi : ℚ} (x : ℚ) (h : lo ≤ hi) :
    (rustClamp x lo hi).isSome = true := by
  simp [rustClamp, h]

/-- `AncestorQuery.find` computes exactly the nearest (inclusive) ancestor
carrying `T` within its fuel. -/
theorem find_eq_nearestCarrier (w : AWorld) :
    ∀ fuel start, AncestorQuery.find w fuel start = nearestCarrier w fuel start := by
  intro fuel
  induction fuel with
  | zero => intro start; rfl
  | succ n ih =>
    intro start
    unfold AncestorQuery.find nearestCarrier ancestorChain
    by_cases h : w.hasT start
    · simp [h, List.find?]
    · simp only [h, if_false, List.find?, Bool.false_eq_true]
      match hp : w.parent start with
      | some p => simpa [hp, List.find?_cons, h] using ih p
      | none => simp [hp, List.find?, h]

/-! ## C1 — `Score::new` clamping versus NaN -/

/-- C1 (code bug): the claim says every `f32` input, **including NaN**, is
clamped into `[0, 1]`.  Rust's `f32::clamp` returns NaN for a NaN input, so
`Score::new(f32::NAN)` stores NaN, outside `[0, 1]` — while every non-NaN
input (including ±∞) is indeed clamped to a value in `[0, 1]`. -/
theorem score_new_nan_escapes (x : F32) (hx : x ≠ F32.nan) :
    scoreNew F32.nan = F32.nan ∧ F32.mem01 (scoreNew F32.nan) = false ∧
    F32.mem01 (scoreNew x) = true := by
  refine ⟨rfl, rfl, ?_⟩
  match x with
  | .nan => exact absurd rfl hx
  | .inf => rfl
  | .neginf => rfl
  | .finite q =>
    by_cases h0 : q < 0
    · simp [scoreNew, F32.lt, h0, F32.mem01]
    · by_cases h1 : 1 < q
      · simp [scoreNew, F32.lt, h0, h1, F32.mem01]
      · simp [scoreNew, F32.lt, h0, h1, F32.mem01, le_of_not_lt h0, le_of_not_lt h1]

/-- Witness for C1's theorem at a concrete non-NaN input. -/
theorem score_new_nan_escapes_witness :
    F32.inf ≠ F32.nan ∧ F32.mem01 (scoreNew F32.inf) = true :=
  ⟨by decide, (score_new_nan_escapes F32.inf (by decide)).2.2⟩

/-! ## C2 — cancel strictly before initiate -/

/-- C2: for an actor in state `Running(current)` with a `Picker`, a
`RequestAction` whose resolved action differs from `current` emits
`ActionEnded(current, Cancelled)` strictly before
`ActionInitiated(next)` (the event list is ordered FIFO), and
sets `CurrentAction` to the new action. -/
theorem request_different_cancels_then_initiates
    (actor : ℕ) (st : ActorState) (p : Picker) (current : ℕ)
    (requested : Option ℕ)
    (hp : st.picker = some p) (hc : st.currentAction = some current)
    (hne : requested.getD p.picked ≠ current) :
    onRequestCancelAndInitiate actor requested st =
      ({ st with currentAction := some (requested.getD p.picked) },
       [.actionEnded actor current .cancelled,
        .actionInitiated actor (requested.getD p.picked)]) := by
  unfold onRequestCancelAndInitiate
  rw [hp, hc]
  simp [hne]

/-- Witness for C2's theorem: running action `9`, picker's pick `5`. -/
theorem request_different_cancels_then_initiates_witness :
    onRequestCancelAndInitiate 0 none ⟨some (Picker.new 5), some 9⟩ =
      (⟨some (Picker.new 5), some 5⟩,
       [.actionEnded 0 9 .cancelled, .actionInitiated 0 5]) :=
  request_different_cancels_then_initiates 0 ⟨some (Picker.new 5), some 9⟩
    (Picker.new 5) 9 none rfl rfl (by decide)

/-! ## C6 — idempotent re-request of the same pick -/

/-- C6 (counterexample): the claim says an actor in state `Running(a)` whose
two consecutive `RequestAction(None)` calls both resolve to `a` sees
**exactly one** `ActionInitiated` event in total.  In the code both calls
are no-ops: zero `ActionInitiated` events are emitted. -/
theorem request_same_pick_counterexample :
    ¬ countInitiated
        ((onRequestCancelAndInitiate 7 none ⟨some (Picker.new 0), some 0⟩).2 ++
         (onRequestCancelAndInitiate 7 none
           (onRequestCancelAndInitiate 7 none ⟨some (Picker.new 0), some 0⟩).1).2) = 1 := by
  decide

/-- C6 (amended): two consecutive `RequestAction(None)` calls resolving to
the picker's unchanged `picked` produce **no** `ActionInitiated` event when
the actor is already `Running(picked)` (both calls are no-ops leaving
`CurrentAction` unchanged); exactly one `ActionInitiated` in total occurs
when the actor starts with no current action. -/
theorem request_same_pick_idempotent
    (actor : ℕ) (st : ActorState) (p : Picker) (hp : st.picker = some p) :
    (st.currentAction = some p.picked →
      onRequestCancelAndInitiate actor none st = (st, []) ∧
      countInitiated
        ((onRequestCancelAndInitiate actor none st).2 ++
         (onRequestCancelAndInitiate actor none
           (onRequestCancelAndInitiate actor none st).1).2) = 0) ∧
    (st.currentAction = none →
      (onRequestCancelAndInitiate actor none st).1.currentAction = some p.picked ∧
      onRequestCancelAndInitiate actor none
          (onRequestCancelAndInitiate actor none st).1 =
        ((onRequestCancelAndInitiate actor none st).1, []) ∧
      countInitiated
        ((onRequestCancelAndInitiate actor none st).2 ++
         (onRequestCancelAndInitiate actor none
           (onRequestCancelAndInitiate actor none st).1).2) = 1) := by
  constructor
  · intro hc
    have h1 : onRequestCancelAndInitiate actor none st = (st, []) := by
      unfold onRequestCancelAndInitiate
      rw [hp, hc]
      simp
    refine ⟨h1, ?_⟩
    rw [h1]
    simp [h1, countInitiated]
  · intro hc
    have h1 : onRequestCancelAndInitiate actor none st =
        ({ st with currentAction := some p.picked }, [.actionInitiated actor p.picked]) := by
      unfold onRequestCancelAndInitiate
      rw [hp, hc]
      simp
    have h2 : onRequestCancelAndInitiate actor none
        ({ st with currentAction := some p.picked }) =
        ({ st with currentAction := some p.picked }, []) := by
      unfold onRequestCancelAndInitiate
      simp [hp]
    rw [h1]
    exact ⟨rfl, h2, by rw [h2]; simp [countInitiated]⟩

/-- Witness for C6's amended theorem, exercising both the `Running(picked)`
case and the no-current-action case. -/
theorem request_same_pick_idempotent_witness :
    (onRequestCancelAndInitiate 7 none ⟨some (Picker.new 3), some 3⟩ =
      (⟨some (Picker.new 3), some 3⟩, []) ∧
     countInitiated
       ((onRequestCancelAndInitiate 7 none ⟨some (Picker.new 3), some 3⟩).2 ++
        (onRequestCancelAndInitiate 7 none
          (onRequestCancelAndInitiate 7 none ⟨some (Picker.new 3), some 3⟩).1).2) = 0) ∧
    countInitiated
      ((onRequestCancelAndInitiate 7 none ⟨some (Picker.new 3), none⟩).2 ++
       (onRequestCancelAndInitiate 7 none
         (onRequestCancelAndInitiate 7 none ⟨some (Picker.new 3), none⟩).1).2) = 1 :=
  ⟨(request_same_pick_idempotent 7 ⟨some (Picker.new 3), some 3⟩
      (Picker.new 3) rfl).1 rfl,
   ((request_same_pick_idempotent 7 ⟨some (Picker.new 3), none⟩
      (Picker.new 3) rfl).2 rfl).2.2⟩

/-! ## C9 — no `Picker`, no-op -/

/-- C9: for an actor with no `Picker` component, handling `RequestAction`
is a complete no-op: no event is emitted and `CurrentAction` is unchanged,
for both the explicit-action (`some a`) and picked-action (`none`) forms. -/
theorem request_without_picker_noop (actor : ℕ) (requested : Option ℕ)
    (cur : Option ℕ) :
    onRequestCancelAndInitiate actor requested ⟨none, cur⟩ = (⟨none, cur⟩, []) :=
  rfl

/-! ## C7 — `FirstToScore` picks the first child at or above the threshold -/

/-- C7: `FirstToScore` picks the action resolved (through the picker's
`choices`, with `default` as fallback) for the **first** scored child in
hierarchy order whose `Score` is `≥ threshold`, and the `default` action
when no child reaches the threshold.  In particular children scored
`[0.3, 0.6, 0.9]` against threshold `0.5` pick the child scoring `0.6`. -/
theorem firstToScore_picks_first_at_threshold :
    (∀ (threshold : ℚ) (actor : ℕ) (p : Picker) (children : List (ℕ × ℚ)),
      (FirstToScore.runLoop threshold actor p children).1.picked =
        match children.find? (fun c => decide (threshold ≤ c.2)) with
        | some c => (p.choices.lookup c.1).getD p.default
        | none => p.default) ∧
    (FirstToScore.runLoop (1 / 2) 0
        { default := 0, choices := [(1, 10), (2, 20), (3, 30)], picked := 0 }
        [(1, 3 / 10), (2, 6 / 10), (3, 9 / 10)]).1.picked = 20 := by
  constructor
  · intro threshold actor p children
    induction children with
    | nil => simp [FirstToScore.runLoop, Picker.pick]
    | cons c rest ih =>
      by_cases h : threshold ≤ c.2
      · simp [FirstToScore.runLoop, Picker.pick, List.find?_cons, h]
      · simpa [FirstToScore.runLoop, Picker.pick, List.find?_cons, h] using ih
  · norm_num [FirstToScore.runLoop, Picker.pick, List.lookup]
    decide

/-! ## C10 — `OnPicked` is emitted only on the fallback path -/

/-- C10: `FirstToScore` emits its `OnPicked` notification exactly when no
child reaches the threshold (carrying the `default` action the fallback
pick resolves to); when some child's `Score` meets the threshold, `picked`
is updated to that child's resolved action and no `OnPicked` is emitted. -/
theorem firstToScore_onPicked_only_fallback (threshold : ℚ) (actor : ℕ)
    (p : Picker) (children : List (ℕ × ℚ)) :
    (FirstToScore.runLoop threshold actor p children).2 =
      (if children.any (fun c => decide (threshold ≤ c.2)) then []
       else [.onPicked actor p.default]) ∧
    (FirstToScore.runLoop threshold actor p children).1.picked =
      match children.find? (fun c => decide (threshold ≤ c.2)) with
      | some c => (p.choices.lookup c.1).getD p.default
      | none => p.default := by
  refine ⟨?_, (firstToScore_picks_first_at_threshold.1 threshold actor p children)⟩
  induction children with
  | nil => simp [FirstToScore.runLoop, Picker.pick]
  | cons c rest ih =>
    by_cases h : threshold ≤ c.2
    · simp [FirstToScore.runLoop, Picker.pick, h]
    · have hd : decide (threshold ≤ c.2) = false := by simp [h]
      have hstep : (FirstToScore.runLoop threshold actor p (c :: rest)).2 =
          (FirstToScore.runLoop threshold actor p rest).2 := by
        simp [FirstToScore.runLoop, h]
      rw [hstep, ih, List.any_cons, hd, Bool.false_or]

/-! ## C4 — `AncestorQuery::get` and the memoized ancestor -/

/-- C4 (counterexample): after `get` memoizes ancestor `2` for entity `0`
(chain `0 → 1 → 2`, `T` only on `2`), attaching `T` to the **nearer**
ancestor `1` is not noticed: the cached ancestor `2` still carries `T`, so
the second `get` returns `2`'s value (`2`) although the nearest carrier is
now `1` (value `1`). -/
theorem ancestorQuery_get_stale_counterexample :
    ((AncestorQuery.get
        ⟨fun e => e == 1 || e == 2, fun e => e,
         fun e => if e = 0 then some 1 else if e = 1 then some 2 else none⟩
        10
        (AncestorQuery.get
          ⟨fun e => e == 2, fun e => e,
           fun e => if e = 0 then some 1 else if e = 1 then some 2 else none⟩
          10 (fun _ => none) 0).2
        0).1 = some 2) ∧
    ((nearestCarrier
        ⟨fun e => e == 1 || e == 2, fun e => e,
         fun e => if e = 0 then some 1 else if e = 1 then some 2 else none⟩
        10 0).map
      (fun e => e) = some 1) ∧
    (2 : ℕ) ≠ 1 := by
  exact ⟨by decide, by decide, by decide⟩

/-- C4 (amended): whenever the cache holds no entry for `start`, or its
cached ancestor no longer carries `T`, `get` returns the value of the
nearest (inclusive) ancestor carrying `T` — `none` (`NotFound`) when there
is no such ancestor.  (A cache hit whose ancestor still carries `T` is
returned as-is and may be stale, as the counterexample shows.) -/
theorem ancestorQuery_get_fresh_correct (w : AWorld) (fuel : ℕ)
    (cache : Cache) (start : ℕ)
    (h : cache start = none ∨
         ∃ anc, cache start = some anc ∧ w.hasT anc = false) :
    (AncestorQuery.get w fuel cache start).1 =
      (nearestCarrier w fuel start).map w.valT := by
  unfold AncestorQuery.get
  rcases h with h | ⟨anc, hanc, hmiss⟩
  · rw [h, ← find_eq_nearestCarrier]
    cases AncestorQuery.find w fuel start <;> rfl
  · rw [hanc, ← find_eq_nearestCarrier]
    simp only [hmiss, Bool.false_eq_true, if_false]
    cases AncestorQuery.find w fuel start <;> rfl

/-- Witness for C4's amended theorem: a fresh (empty-cache) lookup. -/
theorem ancestorQuery_get_fresh_correct_witness :
    (AncestorQuery.get
        ⟨fun e => e == 2, fun e => e,
         fun e => if e = 0 then some 1 else if e = 1 then some 2 else none⟩
        10 (fun _ => none) 0).1 =
      (nearestCarrier
          ⟨fun e => e == 2, fun e => e,
           fun e => if e = 0 then some 1 else if e = 1 then some 2 else none⟩
          10 0).map
        (fun e => e) :=
  ancestorQuery_get_fresh_correct _ 10 (fun _ => none) 0 (Or.inl rfl)

/-! ## C5 — `WeightedRMS` and the clamped weight sum -/

theorem realClamp_eq_min_max (x : ℝ) :
    (if x < 0 then (0 : ℝ) else if 1 < x then 1 else x) = min (max x 0) 1 := by
  split_ifs with h1 h2
  · rw [max_eq_right h1.le]
    norm_num
  · rw [max_eq_left (le_of_not_lt h1), min_eq_right h2.le]
  · rw [max_eq_left (le_of_not_lt h1), min_eq_left (le_of_not_lt h2)]

theorem realClamp_mem (x : ℝ) :
    0 ≤ (if x < 0 then (0 : ℝ) else if 1 < x then 1 else x) ∧
    (if x < 0 then (0 : ℝ) else if 1 < x then 1 else x) ≤ 1 := by
  split_ifs with h1 h2
  · norm_num
  · norm_num
  · exact ⟨le_of_not_lt h1, le_of_not_lt h2⟩

/-- Helper: the source's `WeightedRMS::calculate` coincides with the
sum-notation formula over the clamped weight total. -/
theorem weightedRMS_calc_sum_form (inputs : List (ℚ × ℚ)) :
    WeightedRMS.calculate inputs = weightedRMSAmended inputs := by
  simp only [WeightedRMS.calculate, weightedRMSAmended, scoreSumF32]
  rw [← List.sum_eq_foldl, ← List.sum_eq_foldl, realClamp_eq_min_max]

/-- C5 (counterexample): for children `(score, weight)` pairs
`[(0.5, 0.9), (0.5, 0.9)]` the claim's formula — with the **true** weight sum
`1.8` — gives `sqrt(0.25) = 0.5`, but the code's weight sum goes through the
clamping `Sum<Score>` impl (`1.8 ↦ 1.0`), giving `sqrt(0.45) ≠ 0.5`. -/
theorem weightedRMS_unclamped_sum_counterexample :
    WeightedRMS.calculate [(1 / 2, 9 / 10), (1 / 2, 9 / 10)] ≠
      weightedRMSClaim [(1 / 2, 9 / 10), (1 / 2, 9 / 10)] := by
  have hcalc : WeightedRMS.calculate [(1 / 2, 9 / 10), (1 / 2, 9 / 10)] =
      Real.sqrt ((9 / 20 : ℚ) : ℝ) := by
    rw [weightedRMS_calc_sum_form]
    simp only [weightedRMSAmended]
    have h1 : clamp01 ((([(1 / 2, 9 / 10), (1 / 2, 9 / 10)] :
        List (ℚ × ℚ)).map (·.2)).sum) = 1 := by
      norm_num [clamp01]
    rw [h1, if_neg (by norm_num : ¬(1 : ℚ) = 0)]
    have h2 : (([(1 / 2, 9 / 10), (1 / 2, 9 / 10)] :
        List (ℚ × ℚ)).map (fun p => p.2 / 1 * p.1 ^ 2)).sum = 9 / 20 := by
      norm_num
    rw [h2,
      max_eq_left (Real.sqrt_nonneg _),
      min_eq_left (Real.sqrt_le_one.mpr (by norm_num))]
  have hclaim : weightedRMSClaim [(1 / 2, 9 / 10), (1 / 2, 9 / 10)] =
      Real.sqrt ((1 / 4 : ℚ) : ℝ) := by
    simp only [weightedRMSClaim]
    have h1 : (([(1 / 2, 9 / 10), (1 / 2, 9 / 10)] :
        List (ℚ × ℚ)).map (·.2)).sum = 9 / 5 := by
      norm_num
    rw [h1, if_neg (by norm_num : ¬(9 / 5 : ℚ) = 0)]
    have h2 : (([(1 / 2, 9 / 10), (1 / 2, 9 / 10)] :
        List (ℚ × ℚ)).map (fun p => p.2 / (9 / 5) * p.1 ^ 2)).sum = 1 / 4 := by
      norm_num
    rw [h2]
  rw [hcalc, hclaim]
  intro h
  have h9 : ((9 / 20 : ℚ) : ℝ) = ((1 / 4 : ℚ) : ℝ) :=
    (Real.sqrt_inj (by positivity) (by positivity)).mp h
  norm_num at h9

/-- C5 (amended): `WeightedRMS` returns `0` when the **clamped** weight sum
is `0` (for the `[0,1]`-valued weights this coincides with the true sum
being `0`), and otherwise the `[0,1]`-clamped value of
`sqrt(Σ (weight_i / Σweight) × score_i²)` where `Σweight` is the weight sum
**clamped into `[0, 1]`** by the `Score` summation — not the true sum. -/
theorem weightedRMS_calculate_eq_amended (inputs : List (ℚ × ℚ)) :
    WeightedRMS.calculate inputs = weightedRMSAmended inputs :=
  weightedRMS_calc_sum_form inputs

/-! ## C8 — degenerate inputs, panics, and defined scores -/

/-- C8 (counterexample): a descending linear curve — anchor points
`a = (0, 1)`, `b = (1, 0)`, i.e. reversed `y`-anchors — makes
`LinearEvaluator::evaluate` call `f32::clamp(1.0, 0.0)`, whose
`assert!(min <= max)` fails: the evaluator panics instead of returning a
defined score (modelled as `none`). -/
theorem linear_reversed_anchors_panics :
    (LinearEvaluator.new (0, 1) (1, 0)).evaluate (1 / 2) = none := by
  norm_num [LinearEvaluator.new, LinearEvaluator.evaluate, rustClamp]

/-- C8 (amended): no core operation aborts **provided the curve anchor
points are not reversed**: with `a.x ≤ b.x` and `a.y ≤ b.y` every evaluator
returns a defined value for every input; every `ScoreRange` built by
`ScoreRange::new` has `min_f32 ≤ max_f32` (so `gen_range` in the random
scorer cannot panic); and every aggregator and weighted measure yields a
defined score in `[0, 1]` for every input, however degenerate (empty child
lists, zero total weight).  Reversed anchor points do panic
(`linear_reversed_anchors_panics`). -/
theorem core_operations_no_abort
    (a b : ℚ × ℚ) (k power value threshold : ℚ) (useComp : Bool)
    (children : List ℚ) (inputs : List (ℚ × ℚ)) (mn mx : SBound)
    (hy : a.2 ≤ b.2) (hx : a.1 ≤ b.1) (hmn : mn.wf) (hmx : mx.wf) :
    ((LinearEvaluator.new a b).evaluate value).isSome = true ∧
    ((PowerEvaluator.new power a b).evaluate value).isSome = true ∧
    ((SigmoidEvaluator.new k a b).evaluate value).isSome = true ∧
    ((ExponentialEvaluator.new k a b).evaluate value).isSome = true ∧
    ((LogarithmicEvaluator.new k a b).evaluate value).isSome = true ∧
    (ScoreRange.new mn mx).minF ≤ (ScoreRange.new mn mx).maxF ∧
    (0 ≤ sumObserverScore threshold children ∧
      sumObserverScore threshold children ≤ 1) ∧
    (0 ≤ productObserverScore threshold useComp children ∧
      productObserverScore threshold useComp children ≤ 1) ∧
    (0 ≤ allOrNothingObserverScore threshold children ∧
      allOrNothingObserverScore threshold children ≤ 1) ∧
    (0 ≤ winningObserverScore threshold children ∧
      winningObserverScore threshold children ≤ 1) ∧
    (0 ≤ weightedSumMeasure inputs ∧ weightedSumMeasure inputs ≤ 1) ∧
    (0 ≤ weightedProductMeasure inputs ∧ weightedProductMeasure inputs ≤ 1) ∧
    (0 ≤ weightedMaxMeasure inputs ∧ weightedMaxMeasure inputs ≤ 1) ∧
    (0 ≤ WeightedRMS.calculate inputs ∧ WeightedRMS.calculate inputs ≤ 1) := by
  refine ⟨?_, ?_, ?_, ?_, ?_, ?_, clamp01_mem _, clamp01_mem _, clamp01_mem _,
    clamp01_mem _, clamp01_mem _, clamp01_mem _, clamp01_mem _, ?_⟩
  · exact rustClamp_isSome _ hy
  · simp only [PowerEvaluator.evaluate, PowerEvaluator.new, Option.isSome_map']
    exact rustClamp_isSome _ hx
  · simp only [SigmoidEvaluator.evaluate, SigmoidEvaluator.new]
    rcases hs : rustClamp value a.1 b.1 with _ | cx
    · exact absurd (rustClamp_isSome value hx) (by simp [hs])
    · simp only [hs, Option.some_bind]
      exact rustClamp_isSome _ hy
  · simp only [ExponentialEvaluator.evaluate, ExponentialEvaluator.new,
      Option.isSome_map']
    exact rustClamp_isSome _ hx
  · simp only [LogarithmicEvaluator.evaluate, LogarithmicEvaluator.new,
      Option.isSome_map']
    exact rustClamp_isSome _ hx
  · cases mn with
    | included s =>
      cases mx with
      | included t =>
        simp only [SBound.wf] at hmn hmx
        simp only [ScoreRange.new]
        split_ifs with h <;> simp [ScoreRange.minF, ScoreRange.maxF] <;> linarith
      | excluded t =>
        simp only [SBound.wf] at hmn hmx
        simp only [ScoreRange.new]
        split_ifs with h <;> simp [ScoreRange.minF, ScoreRange.maxF] <;> linarith
      | unbounded =>
        simp only [SBound.wf] at hmn
        simp [ScoreRange.new, ScoreRange.minF, ScoreRange.maxF]
        linarith [hmn.2]
    | excluded s =>
      cases mx with
      | included t =>
        simp only [SBound.wf] at hmn hmx
        simp only [ScoreRange.new]
        split_ifs with h <;> simp [ScoreRange.minF, ScoreRange.maxF] <;> linarith
      | excluded t =>
        simp only [SBound.wf] at hmn hmx
        simp only [ScoreRange.new]
        split_ifs with h <;> simp [ScoreRange.minF, ScoreRange.maxF] <;> linarith
      | unbounded =>
        simp only [SBound.wf] at hmn
        simp [ScoreRange.new, ScoreRange.minF, ScoreRange.maxF]
        linarith [hmn.2]
    | unbounded =>
      cases mx with
      | included t =>
        simp only [SBound.wf] at hmx
        simp [ScoreRange.new, ScoreRange.minF, ScoreRange.maxF]
        linarith [hmx.1]
      | excluded t =>
        simp only [SBound.wf] at hmx
        simp [ScoreRange.new, ScoreRange.minF, ScoreRange.maxF]
        linarith [hmx.1]
      | unbounded =>
        simp [ScoreRange.new, ScoreRange.minF, ScoreRange.maxF]
  · simp only [WeightedRMS.calculate]
    split_ifs with h0 h1 h2
    · norm_num
    · norm_num
    · norm_num
    · exact ⟨le_of_not_lt h1, le_of_not_lt h2⟩

/-- Witness for C8's amended theorem at ordered anchors `a = (0,0)`,
`b = (1,1)` and the full score range. -/
theorem core_operations_no_abort_witness :
    ((LinearEvaluator.new (0, 0) (1, 1)).evaluate (1 / 2)).isSome = true ∧
    (ScoreRange.new .unbounded .unbounded).minF ≤
      (ScoreRange.new .unbounded .unbounded).maxF :=
  ⟨(core_operations_no_abort (0, 0) (1, 1) 0 2 (1 / 2) (1 / 2) true [] []
      .unbounded .unbounded (by norm_num) (by norm_num) trivial trivial).1,
   (core_operations_no_abort (0, 0) (1, 1) 0 2 (1 / 2) (1 / 2) true [] []
      .unbounded .unbounded (by norm_num) (by norm_num) trivial
      trivial).2.2.2.2.2.1⟩

/-! ## C3 — the post-order traversal iterator -/

theorem ETree.size_node (e : ℕ) (cs : List ETree) :
    (ETree.node e cs).size = 1 + (cs.map ETree.size).sum := by
  rw [ETree.size, List.attach_map_val cs ETree.size]

theorem ETree.one_le_size (t : ETree) : 1 ≤ t.size := by
  cases t with
  | node e cs => rw [ETree.size_node]; omega

theorem ETree.size_child_lt {c t : ETree} (h : c ∈ t.children) :
    c.size < t.size := by
  cases t with
  | node e cs =>
    rw [ETree.size_node]
    have := List.single_le_sum (l := cs.map ETree.size) (by simp) c.size
      (List.mem_map_of_mem ETree.size h)
    omega

theorem postOrder_node (f : ℕ → Bool) (e : ℕ) (cs : List ETree) :
    postOrder f (.node e cs) =
      (if f e && !cs.isEmpty then (cs.map (postOrder f)).flatten else []) ++
        [e] := by
  rw [postOrder, List.attach_map_val cs (postOrder f)]

theorem reachableSubtrees_node (f : ℕ → Bool) (e : ℕ) (cs : List ETree) :
    reachableSubtrees f (.node e cs) =
      .node e cs ::
        (if f e && !cs.isEmpty then (cs.map (reachableSubtrees f)).flatten
         else []) := by
  rw [reachableSubtrees, List.attach_map_val cs (reachableSubtrees f)]

theorem getElem?_append_len {α : Type} (A B : List α) (j : ℕ) :
    (A ++ B)[A.length + j]? = B[j]? := by
  induction A with
  | nil => simp
  | cons a A ih => simpa [Nat.succ_add] using ih

theorem eraseIdx_append_len {α : Type} (A : List α) (b : α) (B : List α) :
    (A ++ b :: B).eraseIdx A.length = A ++ B := by
  induction A with
  | nil => simp
  | cons a A ih => simpa using ih

theorem insertIdx_append_len {α : Type} (A B : List α) (x : α) :
    (A ++ B).insertIdx A.length x = A ++ x :: B := by
  induction A with
  | nil => simp
  | cons a A ih => simpa [List.insertIdx_succ_cons] using ih

theorem insertChildrenAux_spec (d : ℕ) (cs : List ETree) :
    ∀ (A B : List (ℕ × ETree)),
      insertChildrenAux d (A ++ B) A.length cs =
        A ++ cs.map (fun c => (d + 1, c)) ++ B := by
  induction cs with
  | nil => intro A B; simp [insertChildrenAux]
  | cons c cs ih =>
    intro A B
    rw [insertChildrenAux, insertIdx_append_len]
    have h := ih (A ++ [(d + 1, c)]) B
    simp only [List.length_append, List.length_cons, List.length_nil] at h
    simpa [List.append_assoc] using h

theorem length_spineQueue (rspine : List ETree) :
    (spineQueue rspine).length = rspine.length := by
  induction rspine with
  | nil => rfl
  | cons t ts ih => simp [spineQueue, ih]

theorem renderGroups_first_le (gs : List (List ETree)) :
    ∀ (d : ℕ) (p : ℕ × ETree), (renderGroups d gs)[0]? = some p → p.1 ≤ d := by
  induction gs with
  | nil => intro d p h; simp [renderGroups] at h
  | cons g rest ih =>
    intro d p h
    cases g with
    | nil =>
      simp only [renderGroups, List.map_nil, List.nil_append] at h
      exact le_trans (ih (d - 1) p h) (Nat.sub_le d 1)
    | cons c g' =>
      simp only [renderGroups, List.map_cons, List.cons_append,
        List.getElem?_cons_zero, Option.some.injEq] at h
      subst h
      exact le_refl d

theorem expandLoop_stop_none (f : ℕ → Bool) (fuel : ℕ) (s : IterState)
    (h : s.queue[s.visited]? = none) : expandLoop f (fuel + 1) s = s := by
  rw [expandLoop, h]

theorem expandLoop_stop_depth (f : ℕ → Bool) (fuel : ℕ) (s : IterState)
    (d : ℕ) (t : ETree) (h : s.queue[s.visited]? = some (d, t))
    (hd : d < s.currentDepth) : expandLoop f (fuel + 1) s = s := by
  rw [expandLoop, h]
  simp [hd]

theorem expandLoop_cd_irrel (f : ℕ → Bool) (fuel : ℕ)
    (q : List (ℕ × ETree)) (v d₁ d₂ dep : ℕ) (t : ETree)
    (h : q[v]? = some (dep, t)) (h1 : d₁ ≤ dep) (h2 : d₂ ≤ dep) :
    expandLoop f (fuel + 1) ⟨q, v, d₁⟩ = expandLoop f (fuel + 1) ⟨q, v, d₂⟩ := by
  rw [expandLoop, expandLoop]
  simp only [h]
  rw [if_neg (by omega : ¬d₁ > dep), if_neg (by omega : ¬d₂ > dep)]

theorem toIter_queue_pop (t : ETree) (ts : List ETree)
    (rest : List (List ETree)) :
    (toIter (t :: ts) ([] :: rest)).queue =
      spineQueue ts ++ ((ts.length, t) :: renderGroups ts.length rest) := by
  simp [toIter, spineQueue, renderGroups, List.append_assoc]

theorem toIter_queue_cons (rspine : List ETree) (g : ETree)
    (gs : List ETree) (rest : List (List ETree)) :
    (toIter rspine ((g :: gs) :: rest)).queue =
      spineQueue rspine ++
        ((rspine.length, g) :: renderGroups rspine.length (gs :: rest)) := by
  simp [toIter, renderGroups]

theorem getElem?_spineQueue_prefix (rspine : List ETree)
    (B : List (ℕ × ETree)) :
    (spineQueue rspine ++ B)[rspine.length]? = B[0]? := by
  have h := getElem?_append_len (spineQueue rspine) B 0
  simpa [length_spineQueue] using h

/-- The bridge: one `next` call on a canonical iterator state is one
abstract transition. -/
theorem bridge (f : ℕ → Bool) :
    ∀ (inner : ℕ) (rspine : List ETree) (groups : List (List ETree)),
      groups.length = rspine.length + 1 →
      headSize groups + 2 ≤ inner →
      nextIter f inner (toIter rspine groups) =
        (nextAbs f rspine groups).map (fun r => (r.1, toIter r.2.1 r.2.2)) := by
  intro inner
  induction inner with
  | zero => intro rspine groups hshape hfuel; omega
  | succ m ih =>
    intro rspine groups hshape hfuel
    rcases groups with _ | ⟨g0, rest⟩
    · simp at hshape
    rcases g0 with _ | ⟨g, gs⟩
    · -- first group empty
      rcases rspine with _ | ⟨t, ts⟩
      · -- spine empty too: shape forces rest = [], the queue is empty
        have hrest : rest = [] := by
          simpa using List.length_eq_zero.mp (by simpa using hshape)
        subst hrest
        have hq : (toIter [] [[]]).queue = [] := by
          simp [toIter, spineQueue, renderGroups]
        rw [nextIter, if_pos (by simp [hq])]
        have : nextAbs f [] [[]] = none := by simp [nextAbs]
        rw [this]
        rfl
      · -- pop: yield the deepest spine entry
        have hq := toIter_queue_pop t ts rest
        have hne : ¬(toIter (t :: ts) ([] :: rest)).queue.isEmpty = true := by
          rw [hq]
          simp [spineQueue]
        rw [nextIter, if_neg hne]
        -- the expand loop does not move
        have hstop : expandLoop f (m + 1) (toIter (t :: ts) ([] :: rest)) =
            toIter (t :: ts) ([] :: rest) := by
          have hv : (toIter (t :: ts) ([] :: rest)).visited = ts.length + 1 := rfl
          have hcd : (toIter (t :: ts) ([] :: rest)).currentDepth =
              ts.length + 1 := rfl
          have hqv : (toIter (t :: ts) ([] :: rest)).queue[ts.length + 1]? =
              (renderGroups ts.length rest)[0]? := by
            rw [hq]
            have h := getElem?_append_len
              (spineQueue ts ++ [(ts.length, t)]) (renderGroups ts.length rest) 0
            simpa [length_spineQueue] using h
          rcases hR : (renderGroups ts.length rest)[0]? with _ | p
          · exact expandLoop_stop_none f m _ (by rw [hv, hqv, hR])
          · rcases p with ⟨d', u⟩
            have hd' : d' ≤ ts.length := renderGroups_first_le rest ts.length _ hR
            exact expandLoop_stop_depth f m _ d' u (by rw [hv, hqv, hR])
              (by rw [hcd]; omega)
        rw [hstop]
        -- remove the spine entry at index `ts.length`
        have hrem : removeStep (toIter (t :: ts) ([] :: rest)) =
            some (t.label, toIter ts rest) := by
          have hv : (toIter (t :: ts) ([] :: rest)).visited = ts.length + 1 := rfl
          have hget : (toIter (t :: ts) ([] :: rest)).queue[ts.length]? =
              some (ts.length, t) := by
            rw [hq, getElem?_spineQueue_prefix]
            simp
          have herase : (toIter (t :: ts) ([] :: rest)).queue.eraseIdx ts.length =
              spineQueue ts ++ renderGroups ts.length rest := by
            rw [hq]
            have h := eraseIdx_append_len (spineQueue ts) (ts.length, t)
              (renderGroups ts.length rest)
            simpa [length_spineQueue] using h
          rw [removeStep, hv]
          simp only [Nat.succ_ne_zero, if_false, Nat.add_sub_cancel, hget, herase]
          rfl
        rw [hrem]
        have : nextAbs f (t :: ts) ([] :: rest) = some (t.label, (ts, rest)) := by
          simp [nextAbs]
        rw [this]
        rfl
    · -- first group starts with `g`
      have hq := toIter_queue_cons rspine g gs rest
      have hne : ¬(toIter rspine ((g :: gs) :: rest)).queue.isEmpty = true := by
        rw [hq]
        simp
      have hv : (toIter rspine ((g :: gs) :: rest)).visited = rspine.length := rfl
      have hcd : (toIter rspine ((g :: gs) :: rest)).currentDepth =
          rspine.length := rfl
      have hget : (toIter rspine ((g :: gs) :: rest)).queue[rspine.length]? =
          some (rspine.length, g) := by
        rw [hq, getElem?_spineQueue_prefix]
        simp
      by_cases hexp : expandCond f g
      · -- push: expand `g` and continue the loop on the deeper state
        rcases hcs : g.children with _ | ⟨c0, crest⟩
        · exfalso
          unfold expandCond at hexp
          rw [hcs] at hexp
          simp at hexp
        -- the expanded queue is the queue of the deeper canonical state
        have hins : insertChildren (toIter rspine ((g :: gs) :: rest)).queue
            rspine.length rspine.length g.children =
            (toIter (g :: rspine) (g.children :: gs :: rest)).queue := by
          rw [hq]
          show insertChildrenAux rspine.length _ (rspine.length + 1) g.children = _
          have hsplit : spineQueue rspine ++
              ((rspine.length, g) :: renderGroups rspine.length (gs :: rest)) =
              (spineQueue rspine ++ [(rspine.length, g)]) ++
                renderGroups rspine.length (gs :: rest) := by
            simp [List.append_assoc]
          rw [hsplit]
          have hlen : (spineQueue rspine ++ [(rspine.length, g)]).length =
              rspine.length + 1 := by
            simp [length_spineQueue]
          rw [← hlen, insertChildrenAux_spec]
          show _ = spineQueue (g :: rspine) ++
            renderGroups (g :: rspine).length (g.children :: gs :: rest)
          rw [spineQueue]
          simp only [List.length_cons, renderGroups, Nat.add_sub_cancel]
          simp [List.append_assoc]
        have hfirst : (toIter (g :: rspine)
            (g.children :: gs :: rest)).queue[rspine.length + 1]? =
            some (rspine.length + 1, c0) := by
          show ((spineQueue rspine ++ [(rspine.length, g)]) ++
            (g.children.map (fun t => (rspine.length + 1, t)) ++
              renderGroups rspine.length (gs :: rest)))[rspine.length + 1]? = _
          · have h := getElem?_append_len (spineQueue rspine ++ [(rspine.length, g)])
              (g.children.map (fun t => (rspine.length + 1, t)) ++
                renderGroups rspine.length (gs :: rest)) 0
            rw [show (spineQueue rspine ++ [(rspine.length, g)]).length =
              rspine.length + 1 from by simp [length_spineQueue]] at h
            rw [show rspine.length + 1 + 0 = rspine.length + 1 from rfl] at h
            rw [h, hcs]
            simp
        have hm2 : 2 ≤ m := by
          have hg1 : 1 ≤ g.size := ETree.one_le_size g
          simp only [headSize] at hfuel
          omega
        obtain ⟨m', hm'⟩ : ∃ m', m = m' + 1 := ⟨m - 1, by omega⟩
        have hloop : expandLoop f (m + 1) (toIter rspine ((g :: gs) :: rest)) =
            expandLoop f m (toIter (g :: rspine) (g.children :: gs :: rest)) := by
          rw [expandLoop]
          simp only [hv, hcd, hget]
          rw [if_neg (by omega : ¬rspine.length > rspine.length), if_pos hexp,
            hins, hm']
          exact expandLoop_cd_irrel f m' _ (rspine.length + 1) rspine.length
            (rspine.length + 1) (rspine.length + 1) c0 hfirst (by omega) (by omega)
        have hnewne : ¬(toIter (g :: rspine)
            (g.children :: gs :: rest)).queue.isEmpty = true := by
          show ¬(spineQueue (g :: rspine) ++ _).isEmpty = true
          rw [spineQueue]
          simp
        have hstep : nextIter f (m + 1) (toIter rspine ((g :: gs) :: rest)) =
            nextIter f m (toIter (g :: rspine) (g.children :: gs :: rest)) := by
          rw [nextIter, nextIter, if_neg hne, if_neg hnewne, hloop]
        rw [hstep]
        have hshape' : (g.children :: gs :: rest).length =
            (g :: rspine).length + 1 := by
          simp only [List.length_cons] at hshape ⊢
          omega
        have hfuel' : headSize (g.children :: gs :: rest) + 2 ≤ m := by
          have hc0 : c0 ∈ g.children := by
            rw [hcs]
            exact List.mem_cons_self c0 crest
          have := ETree.size_child_lt hc0
          simp only [headSize, hcs]
          simp only [headSize] at hfuel
          omega
        rw [ih _ _ hshape' hfuel']
        have : nextAbs f rspine ((g :: gs) :: rest) =
            nextAbs f (g :: rspine) (g.children :: gs :: rest) := by
          rw [nextAbs, if_pos hexp]
        rw [this]
      · -- leaf: visit `g`, fail the children lookup, break, remove `g`
        have hloop : expandLoop f (m + 1) (toIter rspine ((g :: gs) :: rest)) =
            ⟨(toIter rspine ((g :: gs) :: rest)).queue,
             rspine.length + 1, rspine.length⟩ := by
          rw [expandLoop]
          simp only [hv, hcd, hget]
          rw [if_neg (by omega : ¬rspine.length > rspine.length), if_neg hexp]
        rw [nextIter, if_neg hne, hloop]
        have hrem : removeStep ⟨(toIter rspine ((g :: gs) :: rest)).queue,
            rspine.length + 1, rspine.length⟩ =
            some (g.label, toIter rspine (gs :: rest)) := by
          have herase : (toIter rspine ((g :: gs) :: rest)).queue.eraseIdx
              rspine.length =
              spineQueue rspine ++ renderGroups rspine.length (gs :: rest) := by
            rw [hq]
            have h := eraseIdx_append_len (spineQueue rspine) (rspine.length, g)
              (renderGroups rspine.length (gs :: rest))
            simpa [length_spineQueue] using h
          rw [removeStep]
          simp only [Nat.succ_ne_zero, if_false, Nat.add_sub_cancel, hget, herase]
          rfl
        rw [hrem]
        have : nextAbs f rspine ((g :: gs) :: rest) =
            some (g.label, (rspine, gs :: rest)) := by
          rw [nextAbs, if_neg hexp]
        rw [this]
        rfl

theorem postOrder_not_expand (f : ℕ → Bool) (t : ETree)
    (h : ¬expandCond f t = true) : postOrder f t = [t.label] := by
  cases t with
  | node e cs =>
    rw [postOrder_node,
      if_neg (by simpa [expandCond, ETree.label, ETree.children] using h)]
    rfl

theorem postOrder_expand (f : ℕ → Bool) (t : ETree)
    (h : expandCond f t = true) :
    postOrder f t = postForest f t.children ++ [t.label] := by
  cases t with
  | node e cs =>
    rw [postOrder_node,
      if_pos (by simpa [expandCond, ETree.label, ETree.children] using h)]
    rfl

theorem outAbs_cons (f : ℕ → Bool) (g : ETree) (gs : List ETree)
    (rest : List (List ETree)) (rspine : List ETree) :
    outAbs f ((g :: gs) :: rest) rspine =
      postOrder f g ++ outAbs f (gs :: rest) rspine := by
  cases rspine with
  | nil => simp [outAbs, postForest]
  | cons t ts => simp [outAbs, postForest]

theorem headSize_le_absMeasure (rspine : List ETree)
    (groups : List (List ETree)) :
    headSize groups ≤ absMeasure rspine groups := by
  match groups with
  | [] => simp [headSize, absMeasure]
  | [] :: rest => simp [headSize, absMeasure]
  | (g :: gs) :: rest =>
    simp only [headSize, absMeasure, List.map_cons, List.sum_cons]
    omega

theorem absMeasure_push (g : ETree) (rspine : List ETree) (gs : List ETree)
    (rest : List (List ETree)) :
    absMeasure (g :: rspine) (g.children :: gs :: rest) =
      absMeasure rspine ((g :: gs) :: rest) := by
  cases g with
  | node e cs =>
    simp only [absMeasure, List.length_cons, List.map_cons, List.sum_cons,
      ETree.children, ETree.size_node]
    omega

/-- The abstract transition steps through `outAbs` and decreases the
measure. -/
theorem nextAbs_spec (f : ℕ → Bool) :
    ∀ (rspine : List ETree) (groups : List (List ETree)),
      groups.length = rspine.length + 1 →
      ((nextAbs f rspine groups = none → outAbs f groups rspine = []) ∧
       (∀ e rs' gs', nextAbs f rspine groups = some (e, (rs', gs')) →
         outAbs f groups rspine = e :: outAbs f gs' rs' ∧
         gs'.length = rs'.length + 1 ∧
         absMeasure rs' gs' < absMeasure rspine groups))
  | rspine, [], h => absurd h (by simp)
  | [], [] :: rest, h => by
    have hrest : rest = [] := by
      simpa using List.length_eq_zero.mp (by simpa using h)
    subst hrest
    constructor
    · intro _
      simp [outAbs, postForest]
    · intro e rs' gs' hsome
      rw [show nextAbs f [] ([] :: []) = none from by simp [nextAbs]] at hsome
      exact absurd hsome (by simp)
  | t :: ts, [] :: rest, h => by
    constructor
    · intro hnone
      rw [show nextAbs f (t :: ts) ([] :: rest) = some (t.label, (ts, rest)) from
        by simp [nextAbs]] at hnone
      exact absurd hnone (by simp)
    · intro e rs' gs' hsome
      rw [show nextAbs f (t :: ts) ([] :: rest) = some (t.label, (ts, rest)) from
        by simp [nextAbs]] at hsome
      obtain ⟨he, hrs, hgs⟩ : e = t.label ∧ rs' = ts ∧ gs' = rest := by
        have h1 := congrArg (fun o => o.map Prod.fst) hsome
        have h2 := congrArg (fun o => o.map (fun p => p.2.1)) hsome
        have h3 := congrArg (fun o => o.map (fun p => p.2.2)) hsome
        simp at h1 h2 h3
        exact ⟨h1.symm, h2.symm, h3.symm⟩
      subst he; subst hrs; subst hgs
      refine ⟨by simp [outAbs, postForest], by simpa using h, ?_⟩
      simp only [absMeasure, List.length_cons, List.map_cons, List.sum_cons]
      omega
  | rspine, (g :: gs) :: rest, h => by
    by_cases hexp : expandCond f g
    · -- push: defer to the deeper state
      have hshape' : (g.children :: gs :: rest).length =
          (g :: rspine).length + 1 := by
        simp only [List.length_cons] at h ⊢
        omega
      have hrec := nextAbs_spec f (g :: rspine) (g.children :: gs :: rest) hshape'
      have hstep : nextAbs f rspine ((g :: gs) :: rest) =
          nextAbs f (g :: rspine) (g.children :: gs :: rest) := by
        rw [nextAbs, if_pos hexp]
      have hout : outAbs f ((g :: gs) :: rest) rspine =
          outAbs f (g.children :: gs :: rest) (g :: rspine) := by
        rw [outAbs_cons, postOrder_expand f g hexp]
        simp [outAbs, List.append_assoc]
      constructor
      · intro hnone
        rw [hstep] at hnone
        rw [hout]
        exact hrec.1 hnone
      · intro e rs' gs' hsome
        rw [hstep] at hsome
        obtain ⟨h1, h2, h3⟩ := hrec.2 e rs' gs' hsome
        exact ⟨by rw [hout]; exact h1, h2,
          by rw [← absMeasure_push g rspine gs rest]; exact h3⟩
    · -- leaf: yield `g`
      have hstep : nextAbs f rspine ((g :: gs) :: rest) =
          some (g.label, (rspine, gs :: rest)) := by
        rw [nextAbs, if_neg hexp]
      constructor
      · intro hnone
        rw [hstep] at hnone
        exact absurd hnone (by simp)
      · intro e rs' gs' hsome
        rw [hstep] at hsome
        obtain ⟨he, hrs, hgs⟩ : e = g.label ∧ rs' = rspine ∧ gs' = gs :: rest := by
          have h1 := congrArg (fun o => o.map Prod.fst) hsome
          have h2 := congrArg (fun o => o.map (fun p => p.2.1)) hsome
          have h3 := congrArg (fun o => o.map (fun p => p.2.2)) hsome
          simp at h1 h2 h3
          exact ⟨h1.symm, h2.symm, h3.symm⟩
        subst he; subst hrs; subst hgs
        refine ⟨?_, by simpa using h, ?_⟩
        · rw [outAbs_cons, postOrder_not_expand f g hexp]
          rfl
        · have hg1 : 1 ≤ g.size := ETree.one_le_size g
          simp only [absMeasure, List.map_cons, List.sum_cons]
          omega
termination_by _ groups => headSize groups
decreasing_by
  simp only [headSize]
  cases hg : g.children with
  | nil => exact ETree.one_le_size g
  | cons c cs =>
    have : c ∈ g.children := by rw [hg]; exact List.mem_cons_self c cs
    exact ETree.size_child_lt this

theorem runIter_toIter (f : ℕ → Bool) (inner : ℕ) :
    ∀ (n : ℕ) (rspine : List ETree) (groups : List (List ETree)),
      groups.length = rspine.length + 1 →
      absMeasure rspine groups ≤ n →
      absMeasure rspine groups + 2 ≤ inner →
      runIter f inner n (toIter rspine groups) = outAbs f groups rspine := by
  intro n
  induction n with
  | zero =>
    intro rspine groups hshape hm hi
    rcases hnext : nextAbs f rspine groups with _ | ⟨e, ⟨rs', gs'⟩⟩
    · rw [runIter, ((nextAbs_spec f rspine groups hshape).1 hnext)]
    · have := ((nextAbs_spec f rspine groups hshape).2 e rs' gs' hnext).2.2
      omega
  | succ n ih =>
    intro rspine groups hshape hm hi
    have hb := bridge f inner rspine groups hshape
      (by have := headSize_le_absMeasure rspine groups; omega)
    rcases hnext : nextAbs f rspine groups with _ | ⟨e, ⟨rs', gs'⟩⟩
    · rw [runIter, hb, hnext]
      simp only [Option.map_none']
      exact ((nextAbs_spec f rspine groups hshape).1 hnext).symm
    · obtain ⟨hout, hshape', hmeas⟩ :=
        (nextAbs_spec f rspine groups hshape).2 e rs' gs' hnext
      rw [runIter, hb, hnext]
      simp only [Option.map_some']
      rw [ih rs' gs' hshape' (by omega) (by omega)]
      exact hout.symm

/-- The sequence the iterator produces is exactly the recursive
post-order. -/
theorem dfsPostOrder_eq_postOrder (f : ℕ → Bool) (root : ETree) :
    dfsPostOrder f root = postOrder f root := by
  have hinit : (⟨[(0, root)], 0, 0⟩ : IterState) = toIter [] [[root]] := by
    simp [toIter, spineQueue, renderGroups]
  have hmeq : absMeasure [] [[root]] = root.size := by
    simp [absMeasure]
  rw [dfsPostOrder, hinit,
    runIter_toIter f (root.size + 2) (root.size + 2) [] [[root]] (by simp)
      (by omega) (by omega)]
  simp [outAbs, postForest]

theorem label_mem_postOrder (f : ℕ → Bool) (t : ETree) :
    t.label ∈ postOrder f t := by
  cases t with
  | node e cs =>
    rw [postOrder_node]
    simp [ETree.label]

theorem postOrder_sublist_of_reachable (f : ℕ → Bool) :
    ∀ (t u : ETree), u ∈ reachableSubtrees f t →
      (postOrder f u).Sublist (postOrder f t)
  | .node e cs, u, hu => by
    rw [reachableSubtrees_node] at hu
    rcases List.mem_cons.mp hu with h | h
    · subst h
      exact List.Sublist.refl _
    · rcases hcond : (f e && !cs.isEmpty) with _ | _
      · rw [hcond] at h
        simp at h
      · rw [hcond] at h
        simp only [if_true] at h
        obtain ⟨l, hl, hul⟩ := List.mem_flatten.mp h
        obtain ⟨c, hc, hcl⟩ := List.mem_map.mp hl
        subst hcl
        have hrec := postOrder_sublist_of_reachable f c u hul
        have h2 : (postOrder f c).Sublist ((cs.map (postOrder f)).flatten) :=
          List.sublist_flatten_of_mem (List.mem_map_of_mem (postOrder f) hc)
        have h3 : ((cs.map (postOrder f)).flatten).Sublist
            (postOrder f (.node e cs)) := by
          rw [postOrder_node, if_pos hcond]
          exact List.sublist_append_left _ _
        exact (hrec.trans h2).trans h3
termination_by t _ _ => sizeOf t
decreasing_by
  have := List.sizeOf_lt_of_mem hc
  simp only [ETree.node.sizeOf_spec]
  omega

theorem child_label_before_parent (f : ℕ → Bool) (u c : ETree)
    (hf : f u.label = true) (hc : c ∈ u.children) :
    ([c.label, u.label]).Sublist (postOrder f u) := by
  cases u with
  | node e cs =>
    simp only [ETree.children] at hc
    have hne : ¬cs.isEmpty = true := by
      cases cs with
      | nil => exact absurd hc (by simp)
      | cons a l => simp
    have hcond : (f e && !cs.isEmpty) = true := by
      simp only [ETree.label] at hf
      simp [hf, hne]
    rw [postOrder_node, if_pos hcond]
    have h1 : [c.label].Sublist (postOrder f c) :=
      List.singleton_sublist.mpr (label_mem_postOrder f c)
    have h2 : (postOrder f c).Sublist ((cs.map (postOrder f)).flatten) :=
      List.sublist_flatten_of_mem (List.mem_map_of_mem (postOrder f) hc)
    show ([c.label] ++ [(ETree.node e cs).label]).Sublist
      ((cs.map (postOrder f)).flatten ++ [e])
    exact List.Sublist.append (h1.trans h2) (List.Sublist.refl _)

/-- C3: in the sequence produced by the post-order traversal iterator, every
reached node that passes the filter appears strictly after each of its
children (hence after all of its filtered descendants, by transitivity
through the reached subtrees): `[child, parent]` is a sublist of the
produced sequence. -/
theorem dfs_traversal_children_before_parent (f : ℕ → Bool) (t u c : ETree)
    (hu : u ∈ reachableSubtrees f t) (hf : f u.label = true)
    (hc : c ∈ u.children) :
    ([c.label, u.label]).Sublist (dfsPostOrder f t) := by
  rw [dfsPostOrder_eq_postOrder]
  exact (child_label_before_parent f u c hf hc).trans
    (postOrder_sublist_of_reachable f t u hu)

/-- Witness for C3's theorem on the tree `0 → [1, 2]` with a trivial
filter. -/
theorem dfs_traversal_children_before_parent_witness :
    (ETree.node 0 [ETree.node 1 [], ETree.node 2 []]) ∈
      reachableSubtrees (fun _ => true)
        (ETree.node 0 [ETree.node 1 [], ETree.node 2 []]) ∧
    ([(ETree.node 1 []).label,
      (ETree.node 0 [ETree.node 1 [], ETree.node 2 []]).label]).Sublist
      (dfsPostOrder (fun _ => true)
        (ETree.node 0 [ETree.node 1 [], ETree.node 2 []])) :=
  have hu : (ETree.node 0 [ETree.node 1 [], ETree.node 2 []]) ∈
      reachableSubtrees (fun _ => true)
        (ETree.node 0 [ETree.node 1 [], ETree.node 2 []]) := by
    rw [reachableSubtrees_node]
    exact List.mem_cons_self _ _
  ⟨hu,
   dfs_traversal_children_before_parent (fun _ => true)
     (ETree.node 0 [ETree.node 1 [], ETree.node 2 []])
     (ETree.node 0 [ETree.node 1 [], ETree.node 2 []])
     (ETree.node 1 []) hu rfl (List.mem_cons_self _ _)⟩

end ObservedUtility
